import Mathlib

/-!
Verification development for `src/darknet_crawler.py` (Joieux/darknet-crawler).

The crawler's data model and operations are shallowly embedded:
* the SQLite table `urls (url TEXT PRIMARY KEY, visited INTEGER)` becomes an
  association list `Db := List (String × Bool)`;
* `urllib.parse.urljoin` / `urlparse` (the library routines `parse_links`
  delegates URL resolution to) are embedded over `List Char`, following the
  CPython implementation (`;`-parameter splitting is not modelled: every URL
  handled here is parameter-free, and `urljoin` treats the params component
  exactly like an empty one in that case);
* HTML parsing (BeautifulSoup) is external per the spec, so page content is
  modelled by the list of `href` attribute values the parser yields;
* the network is external, so `fetch` is modelled as a function of the
  transport outcome (success body or raised exception);
* the concurrent crawl run (worker threads serialized through `self.lock` for
  all store writes, with atomic `Queue` operations) is modelled by a labelled
  transition system `Step` over `CrawlState`, one transition per atomic
  observable action, with ghost logs recording pushes, pops and fetches.
-/

namespace DarknetCrawler

abbrev Chars := List Char

/-! ### urllib.parse model -/

/-- Characters allowed in a URL scheme (`urllib.parse.scheme_chars`). -/
def schemeChars : Chars :=
  "abcdefghijklmnopqrstuvwxyzABCDEFGHIJKLMNOPQRSTUVWXYZ0123456789+-.".data

/-- Split a character list at the first occurrence of `c`
(Python `s.split(c, 1)` when `c` occurs). -/
def splitFirst (c : Char) : Chars → Option (Chars × Chars)
  | [] => none
  | a :: rest =>
    if a = c then some ([], rest)
    else
      match splitFirst c rest with
      | none => none
      | some (pre, post) => some (a :: pre, post)

/-- `urllib.parse._splitnetloc`: take characters up to the first `/`, `?` or
`#`; returns (netloc, rest). -/
def takeUntilDelims : Chars → Chars × Chars
  | [] => ([], [])
  | a :: rest =>
    if a = '/' ∨ a = '?' ∨ a = '#' then ([], a :: rest)
    else
      let r := takeUntilDelims rest
      (a :: r.1, r.2)

/-- Scheme detection in `urlsplit`: if the text before the first `:` is a
nonempty run of scheme characters starting with an ASCII letter, it is the
(lowercased) scheme. Returns (scheme-or-empty, rest). -/
def splitScheme (s : Chars) : Chars × Chars :=
  match splitFirst ':' s with
  | none => ([], s)
  | some (pre, post) =>
    match s with
    | [] => ([], s)
    | c0 :: _ =>
      if pre ≠ [] ∧ c0.isAlpha ∧ pre.all (fun c => c ∈ schemeChars)
      then (pre.map Char.toLower, post)
      else ([], s)

/-- Parsed URL components (`scheme, netloc, path, query, fragment`); the
params component is not modelled (all URLs here are `;`-free). -/
structure UrlParts where
  scheme : Chars
  netloc : Chars
  path : Chars
  query : Chars
  frag : Chars
deriving DecidableEq, Repr

/-- `urllib.parse.urlsplit(url, scheme=dscheme, allow_fragments=True)`:
scheme detection, then `//netloc`, then fragment at the first `#`, then query
at the first `?`. -/
def urlsplitL (url0 : Chars) (dscheme : Chars) : UrlParts :=
  let s1 := splitScheme url0
  let scheme := if s1.1 = [] then dscheme else s1.1
  let url1 := s1.2
  let n :=
    if url1.take 2 = ['/', '/'] then takeUntilDelims (url1.drop 2)
    else ([], url1)
  let netloc := n.1
  let url2 := n.2
  let f :=
    match splitFirst '#' url2 with
    | some (a, b) => (a, b)
    | none => (url2, [])
  let url3 := f.1
  let frag := f.2
  let q :=
    match splitFirst '?' url3 with
    | some (a, b) => (a, b)
    | none => (url3, [])
  ⟨scheme, netloc, q.1, q.2, frag⟩

/-- `urllib.parse.urlunsplit`. -/
def urlunsplitL (p : UrlParts) : Chars :=
  let url1 :=
    if p.netloc ≠ [] ∨ (p.path ≠ [] ∧ p.path.take 2 = ['/', '/']) then
      '/' :: '/' :: p.netloc ++
        (if p.path ≠ [] ∧ p.path.take 1 ≠ ['/'] then '/' :: p.path else p.path)
    else p.path
  let url2 := if p.scheme ≠ [] then p.scheme ++ ':' :: url1 else url1
  let url3 := if p.query ≠ [] then url2 ++ '?' :: p.query else url2
  if p.frag ≠ [] then url3 ++ '#' :: p.frag else url3

/-- `urllib.parse.uses_relative`. -/
def usesRelative : List Chars :=
  ["".data, "ftp".data, "http".data, "gopher".data, "nntp".data, "imap".data,
   "wais".data, "file".data, "https".data, "shttp".data, "mms".data,
   "prospero".data, "rtsp".data, "rtspu".data, "sftp".data, "svn".data,
   "svn+ssh".data, "ws".data, "wss".data]

/-- `urllib.parse.uses_netloc`. -/
def usesNetloc : List Chars :=
  ["".data, "ftp".data, "http".data, "gopher".data, "nntp".data,
   "telnet".data, "imap".data, "wais".data, "file".data, "mms".data,
   "https".data, "shttp".data, "snews".data, "prospero".data, "rtsp".data,
   "rtspu".data, "rsync".data, "svn".data, "svn+ssh".data, "sftp".data,
   "nfs".data, "git".data, "git+ssh".data, "ws".data, "wss".data,
   "itms-services".data]

/-- Python `path.split('/')` (so `splitSlash [] = [[]]`, matching
`''.split('/') == ['']`). -/
def splitSlash : Chars → List Chars
  | [] => [[]]
  | a :: rest =>
    let r := splitSlash rest
    if a = '/' then [] :: r
    else
      match r with
      | [] => [[a]]
      | h :: t => (a :: h) :: t

/-- Python `'/'.join(parts)`. -/
def joinSlash : List Chars → Chars
  | [] => []
  | [a] => a
  | a :: b :: rest => a ++ '/' :: joinSlash (b :: rest)

/-- `segments[1:-1] = filter(None, segments[1:-1])`: drop empty segments from
the middle, keeping the first and last elements. -/
def filterMiddle : List Chars → List Chars
  | [] => []
  | [a] => [a]
  | a :: b :: rest =>
    a :: (((b :: rest).dropLast.filter (fun s => s ≠ [])) ++
      [(b :: rest).getLastD []])

/-- The dot-segment resolution loop of `urljoin` (`..` pops, `.` is skipped,
anything else is appended; popping an empty stack is ignored). -/
def resolveSegs (segments : List Chars) : List Chars :=
  segments.foldl
    (fun acc seg =>
      if seg = ['.', '.'] then acc.dropLast
      else if seg = ['.'] then acc
      else acc ++ [seg])
    []

/-- `urllib.parse.urljoin(base, url)` on character lists, following the
CPython implementation (with the params component always empty). -/
def urljoinL (base url : Chars) : Chars :=
  if base = [] then url
  else if url = [] then base
  else
    let b := urlsplitL base []
    let r := urlsplitL url b.scheme
    if ¬ (r.scheme = b.scheme ∧ r.scheme ∈ usesRelative) then url
    else if r.scheme ∈ usesNetloc ∧ r.netloc ≠ [] then urlunsplitL r
    else
      let netloc := if r.scheme ∈ usesNetloc then b.netloc else r.netloc
      if r.path = [] then
        let q := if r.query = [] then b.query else r.query
        urlunsplitL ⟨r.scheme, netloc, b.path, q, r.frag⟩
      else
        let baseParts0 := splitSlash b.path
        let baseParts :=
          if baseParts0.getLastD [] ≠ [] then baseParts0.dropLast
          else baseParts0
        let segments :=
          if r.path.take 1 = ['/'] then splitSlash r.path
          else filterMiddle (baseParts ++ splitSlash r.path)
        let resolved0 := resolveSegs segments
        let resolved :=
          if segments.getLastD [] = ['.'] ∨ segments.getLastD [] = ['.', '.']
          then resolved0 ++ [[]]
          else resolved0
        let joined := joinSlash resolved
        urlunsplitL ⟨r.scheme, netloc,
          (if joined = [] then ['/'] else joined), r.query, r.frag⟩

/-- `urljoin` on strings. -/
def urljoin (base url : String) : String := ⟨urljoinL base.data url.data⟩

/-- Python `s.endswith(suffix)`. -/
def endsWithL (suf s : Chars) : Bool :=
  decide (suf = (s.drop (s.length - suf.length)))

/-! ### parse_links (the link extractor) -/

/-- Python `set.add`: membership-based insertion. -/
def addToSet (l : List String) (x : String) : List String :=
  if x ∈ l then l else l ++ [x]

/-- The resolved link has scheme `http` or `https`. -/
def httpScheme (href : String) : Prop :=
  (urlsplitL href.data []).scheme = "http".data ∨
    (urlsplitL href.data []).scheme = "https".data

instance (href : String) : Decidable (httpScheme href) := by
  unfold httpScheme; infer_instance

/-- The `for a in soup.find_all(...)` loop of `parse_links`, as structural
recursion over the hrefs with the accumulated set. The filter is the source's
condition verbatim: scheme in (http, https) and (netloc ends with `.onion`
or netloc does not end with `.onion`). -/
def parseGo (base_url : String) (hrefs : List String) (links : List String) :
    List String :=
  match hrefs with
  | [] => links
  | a :: rest =>
    let href := urljoin base_url a
    let parsed := urlsplitL href.data []
    if httpScheme href ∧ (endsWithL ".onion".data parsed.netloc
        ∨ ¬ endsWithL ".onion".data parsed.netloc)
    then parseGo base_url rest (addToSet links href)
    else parseGo base_url rest links

/-- `DarknetCrawler.parse_links(html, base_url)`: for each `href` attribute
the (external) HTML parser finds, resolve it against `base_url`, filter, and
collect the results as a set. -/
def parse_links (hrefs : List String) (base_url : String) : List String :=
  parseGo base_url hrefs []

/-- Following the spec's words (§4.5, §9 of the spec): the same extractor
with a scheme-only filter and no host condition at all. -/
def parseGoSchemeOnly (base_url : String) (hrefs links : List String) :
    List String :=
  match hrefs with
  | [] => links
  | a :: rest =>
    let href := urljoin base_url a
    if httpScheme href
    then parseGoSchemeOnly base_url rest (addToSet links href)
    else parseGoSchemeOnly base_url rest links

/-- Spec-worded extractor (scheme-only filter), top level. -/
def parse_links_schemeOnly (hrefs : List String) (base_url : String) :
    List String :=
  parseGoSchemeOnly base_url hrefs []

/-! ### Frontier store (the SQLite `urls` table) -/

/-- The `urls` table: rows `(url, visited)` in insertion order. -/
abbrev Db := List (String × Bool)

/-- `SELECT visited FROM urls WHERE url=?` + `fetchone()`:
`none` models "no row". -/
def lookupDb (db : Db) (u : String) : Option Bool :=
  match db with
  | [] => none
  | kv :: rest => if kv.1 = u then some kv.2 else lookupDb rest u

/-- `INSERT OR IGNORE INTO urls (url, visited) VALUES (?, 0)` followed by the
`rowcount > 0` check: inserts a fresh unvisited row iff the key is absent, and
reports whether a row was inserted. -/
def insertIfAbsent (db : Db) (u : String) : Db × Bool :=
  match lookupDb db u with
  | some _ => (db, false)
  | none => (db ++ [(u, false)], true)

/-- `DarknetCrawler.mark_visited`:
`UPDATE urls SET visited=1 WHERE url=?` (a no-op when no row matches). -/
def mark_visited (db : Db) (u : String) : Db :=
  db.map (fun p => if p.1 = u then (p.1, true) else p)

/-- `DarknetCrawler.enqueue_new`: under one lock acquisition, insert-or-ignore
each link in order and queue exactly those whose insert was new. Returns the
updated table and the list of queued links in order. -/
def enqueue_new (db : Db) (links : List String) : Db × List String :=
  match links with
  | [] => (db, [])
  | link :: rest =>
    let r1 := insertIfAbsent db link
    let r2 := enqueue_new r1.1 rest
    (r2.1, if r1.2 then link :: r2.2 else r2.2)

/-- `DarknetCrawler.add_seed`: insert-or-ignore the seed, then `queue.put`
it unconditionally. Returns the updated table and the queued URLs. -/
def add_seed (db : Db) (url : String) : Db × List String :=
  ((insertIfAbsent db url).1, [url])

/-! ### fetch and the worker iteration -/

/-- The transport outcome of `session.get` (or the Selenium driver): either a
body, or a raised exception's message. -/
inductive FetchOutcome where
  | ok (body : String)
  | err (msg : String)
deriving DecidableEq, Repr

/-- `DarknetCrawler.fetch`: returns the response text on success; any
exception is caught and the empty string is returned. -/
def fetch (o : FetchOutcome) : String :=
  match o with
  | .ok body => body
  | .err _ => ""

/-- Observable effects of one iteration of `crawl`'s `worker` on one queue
item: resulting table, queued links, number of `queue.task_done()` calls, and
whether `fetch` was invoked. -/
structure IterOut where
  db : Db
  pushed : List String
  taskDone : Nat
  didFetch : Bool
deriving Repr

/-- The fetch-and-process part of the worker iteration (`html = fetch(url)`
onwards): empty content means failure (nothing stored, nothing pushed);
otherwise parse, `mark_visited`, `enqueue_new`. One `task_done` from the
`finally` block. -/
def workerIterFetch (db : Db) (u : String) (o : FetchOutcome)
    (hrefs : List String) : IterOut :=
  let html := fetch o
  if html = "" then ⟨db, [], 1, true⟩
  else
    let links := parse_links hrefs u
    let db1 := mark_visited db u
    let r := enqueue_new db1 links
    ⟨r.1, r.2, 1, true⟩

/-- One iteration of `crawl`'s `worker` for a popped URL `u`. On the
already-visited path the source calls `queue.task_done()` and then
`continue`, and Python runs the `finally` block — with its second
`queue.task_done()` — on that `continue`, so that path signals twice. A row
of `NULL`/no row is treated as unvisited (`result is not None and result[0]`).
`hrefs` is what the external HTML parser extracts from the fetched body. -/
def workerIter (db : Db) (u : String) (o : FetchOutcome)
    (hrefs : List String) : IterOut :=
  match lookupDb db u with
  | some true => ⟨db, [], 2, false⟩
  | some false => workerIterFetch db u o hrefs
  | none => workerIterFetch db u o hrefs

/-! ### The concurrent crawl run

`crawl(threads=T)` starts `T` worker threads sharing one `Queue` and one
SQLite connection. Every store write is serialized through `self.lock`, the
worker's visited `SELECT` is a single atomic read, and `Queue.get`/`put` are
atomic, so a run is an interleaving of the atomic actions below. Ghost logs
record the URLs ever pushed to, popped from the queue, and passed to `fetch`
(with each fetch's success bit). -/

/-- A worker thread's position inside one loop iteration. -/
inductive WPhase where
  /-- blocked on `queue.get()` (or not yet past it). -/
  | idle
  /-- holds `url` from `queue.get()`, before the visited check / fetch. -/
  | popped (u : String)
  /-- `fetch` returned nonempty content whose parse yielded `links`. -/
  | gotPage (u : String) (links : List String)
  /-- `mark_visited(u)` committed, `enqueue_new(links)` still pending. -/
  | marked (u : String) (links : List String)
deriving DecidableEq, Repr

/-- Global state of a crawl run, plus ghost history logs. -/
structure CrawlState where
  db : Db
  queue : List String
  workers : List WPhase
  pushLog : List String
  popLog : List String
  fetchLog : List (String × Bool)
deriving Repr

/-- State at the start of `crawl`: `DarknetCrawler(db_path)` loaded table
`db0` from disk and `add_seed(seed)` ran (insert-or-ignore plus an
unconditional push) before the `T` workers start. -/
def initState (db0 : Db) (seed : String) (T : Nat) : CrawlState :=
  { db := (insertIfAbsent db0 seed).1
    queue := [seed]
    workers := List.replicate T .idle
    pushLog := [seed]
    popLog := []
    fetchLog := [] }

/-- One atomic action of some worker thread. -/
inductive Step : CrawlState → CrawlState → Prop where
  /-- `url = self.queue.get()`: FIFO pop of the queue head. -/
  | pop (s : CrawlState) (u : String) (q' : List String)
      (l1 l2 : List WPhase) :
      s.queue = u :: q' → s.workers = l1 ++ .idle :: l2 →
      Step s { s with queue := q', workers := l1 ++ .popped u :: l2,
                      popLog := s.popLog ++ [u] }
  /-- the visited `SELECT` found `visited=1`: skip (`continue`). -/
  | skip (s : CrawlState) (u : String) (l1 l2 : List WPhase) :
      s.workers = l1 ++ .popped u :: l2 → lookupDb s.db u = some true →
      Step s { s with workers := l1 ++ .idle :: l2 }
  /-- not visited; `fetch(url)` returned nonempty content from which the
  HTML parser extracted `hrefs`; `parse_links` resolved them. -/
  | fetchOk (s : CrawlState) (u : String) (hrefs : List String)
      (l1 l2 : List WPhase) :
      s.workers = l1 ++ .popped u :: l2 → lookupDb s.db u ≠ some true →
      Step s { s with
        workers := l1 ++ .gotPage u (parse_links hrefs u) :: l2,
        fetchLog := s.fetchLog ++ [(u, true)] }
  /-- not visited; `fetch(url)` returned `''` (transport failure or empty
  body): nothing stored, nothing pushed. -/
  | fetchFail (s : CrawlState) (u : String) (l1 l2 : List WPhase) :
      s.workers = l1 ++ .popped u :: l2 → lookupDb s.db u ≠ some true →
      Step s { s with workers := l1 ++ .idle :: l2,
                      fetchLog := s.fetchLog ++ [(u, false)] }
  /-- `mark_visited(url)`: one lock acquisition, one committed UPDATE. -/
  | mark (s : CrawlState) (u : String) (links : List String)
      (l1 l2 : List WPhase) :
      s.workers = l1 ++ .gotPage u links :: l2 →
      Step s { s with db := mark_visited s.db u,
                      workers := l1 ++ .marked u links :: l2 }
  /-- `enqueue_new(links)`: one lock acquisition covering the whole
  insert-and-push loop. -/
  | enqueue (s : CrawlState) (u : String) (links : List String)
      (l1 l2 : List WPhase) :
      s.workers = l1 ++ .marked u links :: l2 →
      Step s { s with db := (enqueue_new s.db links).1,
                      queue := s.queue ++ (enqueue_new s.db links).2,
                      pushLog := s.pushLog ++ (enqueue_new s.db links).2,
                      workers := l1 ++ .idle :: l2 }

/-- States reachable during a crawl run. -/
def Reachable (s s' : CrawlState) : Prop := Relation.ReflTransGen Step s s'

/-- Number of workers currently holding `u` fresh from a pop. -/
def holders (s : CrawlState) (u : String) : Nat :=
  s.workers.countP (fun w => decide (w = .popped u))

/-- How many times `u` has been passed to `fetch` so far. -/
def fetchCount (s : CrawlState) (u : String) : Nat :=
  s.fetchLog.countP (fun p => decide (p.1 = u))

/-- Occurrences of `u` in a list of URLs. -/
def cnt (u : String) (l : List String) : Nat :=
  l.countP (fun v => decide (v = u))

/-- The `url TEXT PRIMARY KEY` constraint: each URL is the key of at most one
row. -/
def KeysNodup (db : Db) : Prop := (db.map Prod.fst).Nodup

/-- Legal evolution of the `urls` table: rows are never deleted and a row's
`visited` flag can only go from 0 to 1, never back. -/
def DbEvolves (d d' : Db) : Prop :=
  ∀ v b, lookupDb d v = some b →
    lookupDb d' v = some b ∨ (b = false ∧ lookupDb d' v = some true)

/-- Results seen by `k` callers racing `insertIfAbsent` on the same URL: the
lock serializes them, so the race is a sequence of atomic calls. -/
def raceResults (db : Db) (u : String) : Nat → List Bool
  | 0 => []
  | k + 1 =>
    let r := insertIfAbsent db u
    r.2 :: raceResults r.1 u k

/-- Run invariant, relative to the table contents `db0` found on disk:
every URL ever pushed has a row; no URL is pushed twice; queue plus pops
balance pushes; fetches of `u` (plus workers holding a popped `u`) never
exceed pops of `u`; a row is visited only if it was visited on disk or some
fetch of it succeeded; a worker past a successful fetch of `u` is matched by
a success entry in the fetch log. -/
structure Inv (db0 : Db) (s : CrawlState) : Prop where
  pushedInDb : ∀ u ∈ s.pushLog, lookupDb s.db u ≠ none
  pushNodup : s.pushLog.Nodup
  queueBal : ∀ u, cnt u s.queue + cnt u s.popLog = cnt u s.pushLog
  fetchBal : ∀ u, fetchCount s u + holders s u ≤ cnt u s.popLog
  visitedFrom : ∀ u, lookupDb s.db u = some true →
    lookupDb db0 u = some true ∨ (u, true) ∈ s.fetchLog
  phaseFetched : ∀ u links,
    (WPhase.gotPage u links ∈ s.workers ∨ WPhase.marked u links ∈ s.workers) →
    (u, true) ∈ s.fetchLog

/-! ### Store lemmas -/

theorem lookupDb_append_left {d1 : Db} {v : String} {b : Bool}
    (h : lookupDb d1 v = some b) (d2 : Db) :
    lookupDb (d1 ++ d2) v = some b := by
  induction d1 with
  | nil => simp [lookupDb] at h
  | cons kv rest ih =>
    by_cases hk : kv.1 = v
    · simp [lookupDb, hk] at h ⊢; exact h
    · simp [lookupDb, hk] at h ⊢; exact ih h

theorem lookupDb_append_right {d1 : Db} {v : String}
    (h : lookupDb d1 v = none) (d2 : Db) :
    lookupDb (d1 ++ d2) v = lookupDb d2 v := by
  induction d1 with
  | nil => simp [lookupDb]
  | cons kv rest ih =>
    by_cases hk : kv.1 = v
    · simp [lookupDb, hk] at h
    · simp [lookupDb, hk] at h ⊢; exact ih h

theorem insertIfAbsent_of_present {db : Db} {u : String}
    (h : lookupDb db u ≠ none) : insertIfAbsent db u = (db, false) := by
  cases hl : lookupDb db u with
  | none => exact absurd hl h
  | some b => simp [insertIfAbsent, hl]

theorem insertIfAbsent_of_absent {db : Db} {u : String}
    (h : lookupDb db u = none) :
    insertIfAbsent db u = (db ++ [(u, false)], true) := by
  simp [insertIfAbsent, h]

theorem insert_lookup_self (db : Db) (u : String) :
    lookupDb (insertIfAbsent db u).1 u ≠ none := by
  cases hl : lookupDb db u with
  | some b => simp [insertIfAbsent, hl]
  | none =>
    rw [insertIfAbsent_of_absent hl]
    rw [lookupDb_append_right hl]
    simp [lookupDb]

theorem insert_preserve {db : Db} {v : String} {b : Bool}
    (h : lookupDb db v = some b) (u : String) :
    lookupDb (insertIfAbsent db u).1 v = some b := by
  cases hl : lookupDb db u with
  | some c => simp [insertIfAbsent, hl]; exact h
  | none => rw [insertIfAbsent_of_absent hl]; exact lookupDb_append_left h _

theorem insert_mono {db : Db} {v : String}
    (h : lookupDb db v ≠ none) (u : String) :
    lookupDb (insertIfAbsent db u).1 v ≠ none := by
  cases hl : lookupDb db v with
  | none => exact absurd hl h
  | some b => rw [insert_preserve hl u]; simp

theorem insert_back_true {db : Db} {u v : String}
    (h : lookupDb (insertIfAbsent db u).1 v = some true) :
    lookupDb db v = some true := by
  cases hl : lookupDb db u with
  | some c => rw [insertIfAbsent_of_present (by simp [hl])] at h; exact h
  | none =>
    rw [insertIfAbsent_of_absent hl] at h
    cases hv : lookupDb db v with
    | some b => rw [lookupDb_append_left hv] at h; exact h
    | none =>
      rw [lookupDb_append_right hv] at h
      by_cases huv : u = v <;> simp [lookupDb, huv] at h

theorem insert_new_iff (db : Db) (u : String) :
    (insertIfAbsent db u).2 = true ↔ lookupDb db u = none := by
  cases hl : lookupDb db u with
  | some b => simp [insertIfAbsent, hl]
  | none => simp [insertIfAbsent, hl]

theorem mark_lookup (db : Db) (u v : String) :
    lookupDb (mark_visited db u) v =
      if v = u then (lookupDb db v).map (fun _ => true)
      else lookupDb db v := by
  induction db with
  | nil => by_cases hvu : v = u <;> simp [mark_visited, lookupDb, hvu]
  | cons kv rest ih =>
    by_cases hku : kv.1 = u <;> by_cases hkv : kv.1 = v <;>
      by_cases hvu : v = u <;>
        simp_all [mark_visited, lookupDb, hku, hkv, hvu]

theorem mark_mono {db : Db} {v : String}
    (h : lookupDb db v ≠ none) (u : String) :
    lookupDb (mark_visited db u) v ≠ none := by
  rw [mark_lookup]
  cases hl : lookupDb db v with
  | none => exact absurd hl h
  | some b => by_cases hvu : v = u <;> simp [hvu, hl]

theorem mark_true {db : Db} {u : String} (h : lookupDb db u ≠ none) :
    lookupDb (mark_visited db u) u = some true := by
  rw [mark_lookup]
  cases hl : lookupDb db u with
  | none => exact absurd hl h
  | some b => simp

theorem mark_back_true {db : Db} {u v : String}
    (h : lookupDb (mark_visited db u) v = some true) :
    v = u ∨ lookupDb db v = some true := by
  rw [mark_lookup] at h
  by_cases hvu : v = u
  · exact Or.inl hvu
  · simp [hvu] at h; exact Or.inr h

theorem mark_true_mono {db : Db} {v : String}
    (h : lookupDb db v = some true) (u : String) :
    lookupDb (mark_visited db u) v = some true := by
  rw [mark_lookup, h]
  by_cases hvu : v = u <;> simp [hvu]

theorem lookupDb_of_append_none {d1 d2 : Db} {v : String}
    (h : lookupDb (d1 ++ d2) v = none) : lookupDb d1 v = none := by
  cases hl : lookupDb d1 v with
  | none => rfl
  | some b => rw [lookupDb_append_left hl] at h; exact absurd h (by simp)

/-! ### enqueue_new lemmas -/

theorem enqueue_preserve {v : String} {b : Bool} (links : List String) :
    ∀ db : Db, lookupDb db v = some b →
      lookupDb (enqueue_new db links).1 v = some b := by
  induction links with
  | nil => intro db h; simpa [enqueue_new] using h
  | cons link rest ih =>
    intro db h
    simp only [enqueue_new]
    exact ih _ (insert_preserve h link)

theorem enqueue_mono {v : String} (links : List String) {db : Db}
    (h : lookupDb db v ≠ none) :
    lookupDb (enqueue_new db links).1 v ≠ none := by
  cases hl : lookupDb db v with
  | none => exact absurd hl h
  | some b => rw [enqueue_preserve links db hl]; simp

theorem enqueue_back_true {v : String} (links : List String) :
    ∀ db : Db, lookupDb (enqueue_new db links).1 v = some true →
      lookupDb db v = some true := by
  induction links with
  | nil => intro db h; simpa [enqueue_new] using h
  | cons link rest ih =>
    intro db h
    simp only [enqueue_new] at h
    exact insert_back_true (ih _ h)

theorem enqueue_links_in {v : String} (links : List String) :
    ∀ db : Db, v ∈ links → lookupDb (enqueue_new db links).1 v ≠ none := by
  induction links with
  | nil => intro db h; simp at h
  | cons link rest ih =>
    intro db h
    simp only [enqueue_new]
    rcases List.mem_cons.mp h with hv | hv
    · subst hv
      exact enqueue_mono rest (insert_lookup_self db v)
    · exact ih _ hv

theorem enqueue_pushed_absent {v : String} (links : List String) :
    ∀ db : Db, v ∈ (enqueue_new db links).2 → lookupDb db v = none := by
  induction links with
  | nil => intro db h; simp [enqueue_new] at h
  | cons link rest ih =>
    intro db h
    simp only [enqueue_new] at h
    cases hl : lookupDb db link with
    | some b =>
      rw [insertIfAbsent_of_present (by simp [hl])] at h
      simp only at h
      exact ih _ h
    | none =>
      rw [insertIfAbsent_of_absent hl] at h
      simp only at h
      rcases List.mem_cons.mp h with hv | hv
      · subst hv; exact hl
      · exact lookupDb_of_append_none (ih _ hv)

theorem enqueue_pushed_sub {v : String} (links : List String) :
    ∀ db : Db, v ∈ (enqueue_new db links).2 → v ∈ links := by
  induction links with
  | nil => intro db h; simp [enqueue_new] at h
  | cons link rest ih =>
    intro db h
    simp only [enqueue_new] at h
    cases hr : (insertIfAbsent db link).2 with
    | false => rw [hr] at h; simp only [if_neg Bool.false_ne_true] at h
               exact List.mem_cons_of_mem _ (ih _ h)
    | true =>
      rw [hr] at h; simp only [if_pos rfl] at h
      rcases List.mem_cons.mp h with hv | hv
      · exact hv ▸ List.mem_cons_self _ _
      · exact List.mem_cons_of_mem _ (ih _ hv)

theorem enqueue_pushed_nodup (links : List String) :
    ∀ db : Db, (enqueue_new db links).2.Nodup := by
  induction links with
  | nil => intro db; simp [enqueue_new]
  | cons link rest ih =>
    intro db
    simp only [enqueue_new]
    cases hl : lookupDb db link with
    | some b =>
      rw [insertIfAbsent_of_present (by simp [hl])]
      simpa using ih db
    | none =>
      rw [insertIfAbsent_of_absent hl]
      simp only [if_pos rfl]
      refine List.nodup_cons.mpr ⟨fun hmem => ?_, ih _⟩
      have habs := enqueue_pushed_absent rest _ hmem
      have hself : lookupDb (db ++ [(link, false)]) link = some false := by
        rw [lookupDb_append_right hl]; simp [lookupDb]
      rw [habs] at hself
      exact absurd hself (by simp)

theorem enqueue_pushed_mem {v : String} (links : List String) :
    ∀ db : Db, links.Nodup →
      (v ∈ (enqueue_new db links).2 ↔ v ∈ links ∧ lookupDb db v = none) := by
  induction links with
  | nil => intro db _; simp [enqueue_new]
  | cons link rest ih =>
    intro db hnd
    rcases List.nodup_cons.mp hnd with ⟨hlink, hrest⟩
    constructor
    · intro h
      exact ⟨enqueue_pushed_sub _ _ h, enqueue_pushed_absent _ _ h⟩
    · rintro ⟨hmem, habs⟩
      simp only [enqueue_new]
      rcases List.mem_cons.mp hmem with hv | hv
      · subst hv
        rw [insertIfAbsent_of_absent habs]
        simp only [if_pos rfl]
        exact List.mem_cons_self _ _
      · have hvne : v ≠ link := fun hcontra => hlink (hcontra ▸ hv)
        cases hl : lookupDb db link with
        | some b =>
          rw [insertIfAbsent_of_present (by simp [hl])]
          have hrec := (ih db hrest).mpr ⟨hv, habs⟩
          split
          · exact List.mem_cons_of_mem _ hrec
          · exact hrec
        | none =>
          rw [insertIfAbsent_of_absent hl]
          simp only [if_pos rfl]
          apply List.mem_cons_of_mem
          apply (ih _ hrest).mpr
          refine ⟨hv, ?_⟩
          rw [lookupDb_append_right habs]
          have hlv : link ≠ v := fun hc => hvne hc.symm
          simp [lookupDb, hlv]

theorem enqueue_evolves (db : Db) (links : List String) :
    DbEvolves db (enqueue_new db links).1 :=
  fun _ _ h => Or.inl (enqueue_preserve links db h)

/-! ### Key-uniqueness and evolution lemmas -/

theorem lookup_none_iff_keys {db : Db} {v : String} :
    lookupDb db v = none ↔ v ∉ db.map Prod.fst := by
  induction db with
  | nil => simp [lookupDb]
  | cons kv rest ih =>
    simp only [lookupDb, List.map_cons, List.mem_cons]
    by_cases hk : kv.1 = v
    · simp [hk]
    · simp only [if_neg hk, ih]
      constructor
      · intro h hc
        rcases hc with hc | hc
        · exact hk hc.symm
        · exact h hc
      · intro h hc
        exact h (Or.inr hc)

theorem keys_insert {db : Db} (hk : KeysNodup db) (u : String) :
    KeysNodup (insertIfAbsent db u).1 := by
  cases hl : lookupDb db u with
  | some b => rw [insertIfAbsent_of_present (by simp [hl])]; exact hk
  | none =>
    rw [insertIfAbsent_of_absent hl]
    unfold KeysNodup at hk ⊢
    rw [List.map_append]
    apply List.Nodup.append hk (by simp)
    intro a ha hb
    simp at hb
    subst hb
    exact lookup_none_iff_keys.mp hl ha

theorem keys_mark (db : Db) (u : String) :
    (mark_visited db u).map Prod.fst = db.map Prod.fst := by
  induction db with
  | nil => rfl
  | cons kv rest ih =>
    by_cases hk : kv.1 = u <;> simp [mark_visited, hk] <;>
      simpa [mark_visited] using ih

theorem keys_mark_nodup {db : Db} (hk : KeysNodup db) (u : String) :
    KeysNodup (mark_visited db u) := by
  unfold KeysNodup; rw [keys_mark]; exact hk

theorem keys_enqueue (links : List String) :
    ∀ db : Db, KeysNodup db → KeysNodup (enqueue_new db links).1 := by
  induction links with
  | nil => intro db hk; simpa [enqueue_new] using hk
  | cons link rest ih =>
    intro db hk
    simp only [enqueue_new]
    exact ih _ (keys_insert hk link)

theorem insert_evolves (db : Db) (u : String) :
    DbEvolves db (insertIfAbsent db u).1 :=
  fun _ _ h => Or.inl (insert_preserve h u)

theorem mark_evolves (db : Db) (u : String) :
    DbEvolves db (mark_visited db u) := by
  intro v b h
  rw [mark_lookup]
  by_cases hvu : v = u
  · subst hvu
    cases b with
    | true => left; simp [h]
    | false => right; exact ⟨rfl, by simp [h]⟩
  · left; rw [if_neg hvu]; exact h

theorem DbEvolves.trans {d1 d2 d3 : Db} (h12 : DbEvolves d1 d2)
    (h23 : DbEvolves d2 d3) : DbEvolves d1 d3 := by
  intro v b h
  rcases h12 v b h with h2 | ⟨hb, h2⟩
  · exact h23 v b h2
  · exact Or.inr ⟨hb, (h23 v true h2).elim id (fun hc => absurd hc.1 (by simp))⟩

/-! ### Extractor lemmas -/

theorem addToSet_mem {l : List String} {x y : String} :
    y ∈ addToSet l x ↔ y ∈ l ∨ y = x := by
  unfold addToSet
  split <;> simp_all

theorem addToSet_nodup {l : List String} (h : l.Nodup) (x : String) :
    (addToSet l x).Nodup := by
  unfold addToSet
  split
  · exact h
  · next hx => simp [List.nodup_append, h, hx]

theorem parseGo_nodup (base : String) (hrefs : List String) :
    ∀ links : List String, links.Nodup → (parseGo base hrefs links).Nodup := by
  induction hrefs with
  | nil => intro links h; simpa [parseGo] using h
  | cons a rest ih =>
    intro links h
    simp only [parseGo]
    split
    · exact ih _ (addToSet_nodup h _)
    · exact ih _ h

theorem parseGo_mem (base : String) (hrefs : List String) {y : String} :
    ∀ links : List String,
      (y ∈ parseGo base hrefs links ↔
        y ∈ links ∨ ∃ h ∈ hrefs, urljoin base h = y ∧ httpScheme y) := by
  induction hrefs with
  | nil => intro links; simp [parseGo]
  | cons a rest ih =>
    intro links
    simp only [parseGo]
    by_cases hs : httpScheme (urljoin base a)
    · rw [if_pos ⟨hs, Classical.em _⟩, ih, addToSet_mem]
      constructor
      · rintro ((hy | hy) | ⟨h, hh, hurl, hsch⟩)
        · exact Or.inl hy
        · exact Or.inr ⟨a, List.mem_cons_self _ _, hy.symm, hy ▸ hs⟩
        · exact Or.inr ⟨h, List.mem_cons_of_mem _ hh, hurl, hsch⟩
      · rintro (hy | ⟨h, hh, hurl, hsch⟩)
        · exact Or.inl (Or.inl hy)
        · rcases List.mem_cons.mp hh with rfl | hh
          · exact Or.inl (Or.inr hurl.symm)
          · exact Or.inr ⟨h, hh, hurl, hsch⟩
    · rw [if_neg (fun hc => hs hc.1), ih]
      constructor
      · rintro (hy | ⟨h, hh, hurl, hsch⟩)
        · exact Or.inl hy
        · exact Or.inr ⟨h, List.mem_cons_of_mem _ hh, hurl, hsch⟩
      · rintro (hy | ⟨h, hh, hurl, hsch⟩)
        · exact Or.inl hy
        · rcases List.mem_cons.mp hh with rfl | hh
          · exact absurd (hurl ▸ hsch) hs
          · exact Or.inr ⟨h, hh, hurl, hsch⟩

theorem parseGo_schemeOnly_eq (base : String) (hrefs : List String) :
    ∀ links : List String,
      parseGo base hrefs links = parseGoSchemeOnly base hrefs links := by
  induction hrefs with
  | nil => intro links; rfl
  | cons a rest ih =>
    intro links
    simp only [parseGo, parseGoSchemeOnly]
    by_cases hs : httpScheme (urljoin base a)
    · rw [if_pos ⟨hs, Classical.em _⟩, if_pos hs, ih]
    · rw [if_neg (fun hc => hs hc.1), if_neg hs, ih]

/-! ### Counting helpers -/

theorem cnt_nil (u : String) : cnt u [] = 0 := rfl

theorem cnt_cons (u a : String) (l : List String) :
    cnt u (a :: l) = cnt u l + (if a = u then 1 else 0) := by
  simp [cnt, List.countP_cons]

theorem cnt_append (u : String) (l1 l2 : List String) :
    cnt u (l1 ++ l2) = cnt u l1 + cnt u l2 := by
  simp [cnt, List.countP_append]

theorem cnt_eq_zero_of_not_mem {u : String} {l : List String} (h : u ∉ l) :
    cnt u l = 0 := by
  induction l with
  | nil => rfl
  | cons a rest ih =>
    rw [cnt_cons]
    have hau : a ≠ u := fun hc => h (hc ▸ List.mem_cons_self _ _)
    have hur : u ∉ rest := fun hc => h (List.mem_cons_of_mem _ hc)
    simp [hau, ih hur]

theorem cnt_le_one_of_nodup {l : List String} (h : l.Nodup) (u : String) :
    cnt u l ≤ 1 := by
  induction l with
  | nil => simp [cnt_nil]
  | cons a rest ih =>
    rcases List.nodup_cons.mp h with ⟨ha, hrest⟩
    rw [cnt_cons]
    by_cases hau : a = u
    · subst hau
      rw [cnt_eq_zero_of_not_mem ha]
      simp
    · simp [hau, ih hrest]

/-- A member of a list with a hole is the hole's occupant or a member with
any other occupant in the hole. -/
theorem mem_mid (x : WPhase) {z y : WPhase} {l1 l2 : List WPhase}
    (h : z ∈ l1 ++ y :: l2) : z = y ∨ z ∈ l1 ++ x :: l2 := by
  simp only [List.mem_append, List.mem_cons] at h ⊢
  rcases h with h | h | h
  · exact Or.inr (Or.inl h)
  · exact Or.inl h
  · exact Or.inr (Or.inr (Or.inr h))

theorem mem_swap {x z y : WPhase} {l1 l2 : List WPhase}
    (h : z ∈ l1 ++ y :: l2) (hzy : z ≠ y) : z ∈ l1 ++ x :: l2 := by
  rcases mem_mid x h with hc | hc
  · exact absurd hc hzy
  · exact hc

theorem countP_replicate_idle (T : Nat) (p : WPhase → Bool)
    (hp : p .idle = false) :
    (List.replicate T WPhase.idle).countP p = 0 := by
  induction T with
  | zero => rfl
  | succ n ih => simp [List.replicate_succ, List.countP_cons, hp, ih]

/-! ### The run invariant -/

theorem inv_init (db0 : Db) (seed : String) (T : Nat) :
    Inv db0 (initState db0 seed T) := by
  refine ⟨?_, ?_, ?_, ?_, ?_, ?_⟩
  · intro v hv
    simp only [initState] at hv ⊢
    rcases List.mem_singleton.mp hv with rfl
    exact insert_lookup_self db0 v
  · simp [initState]
  · intro v; simp [initState, cnt_nil]
  · intro v
    simp only [initState, fetchCount, holders, List.countP_nil]
    rw [countP_replicate_idle T _ (by simp)]
    simp [cnt_nil]
  · intro v hv
    simp only [initState] at hv
    exact Or.inl (insert_back_true hv)
  · intro w lk hmem
    simp only [initState] at hmem
    rcases hmem with hmem | hmem <;>
      exact absurd (List.eq_of_mem_replicate hmem) (by simp)

theorem countP_mid (p : WPhase → Bool) (l1 l2 : List WPhase) (x : WPhase) :
    (l1 ++ x :: l2).countP p =
      l1.countP p + l2.countP p + (if p x = true then 1 else 0) := by
  simp [List.countP_append, List.countP_cons]
  omega

theorem inv_step {db0 : Db} {s s' : CrawlState} (hs : Inv db0 s)
    (hstep : Step s s') : Inv db0 s' := by
  cases hstep with
  | pop u q' l1 l2 hq hw =>
    refine ⟨hs.pushedInDb, hs.pushNodup, ?_, ?_, hs.visitedFrom, ?_⟩
    · intro v
      have hb := hs.queueBal v
      rw [hq, cnt_cons] at hb
      show cnt v q' + cnt v (s.popLog ++ [u]) = cnt v s.pushLog
      rw [cnt_append, cnt_cons, cnt_nil]
      omega
    · intro v
      have hb := hs.fetchBal v
      simp only [holders, fetchCount] at hb ⊢
      rw [hw, countP_mid] at hb
      show s.fetchLog.countP _ + (l1 ++ WPhase.popped u :: l2).countP _ ≤
        cnt v (s.popLog ++ [u])
      rw [countP_mid, cnt_append, cnt_cons, cnt_nil]
      have hidle : decide (WPhase.idle = WPhase.popped v) = false := by simp
      rw [hidle] at hb
      simp only [Bool.false_eq_true, if_false] at hb
      by_cases huv : u = v
      · subst huv
        simp only [decide_eq_true_eq, if_pos rfl]
        omega
      · have h1 : decide (WPhase.popped u = WPhase.popped v) = false := by
          simp [huv]
        rw [h1]
        simp only [Bool.false_eq_true, if_false, if_neg huv]
        omega
    · intro w lk hmem
      apply hs.phaseFetched w lk
      rw [hw]
      rcases hmem with hmem | hmem
      · exact Or.inl (mem_swap hmem (by simp))
      · exact Or.inr (mem_swap hmem (by simp))
  | skip u l1 l2 hw hv =>
    refine ⟨hs.pushedInDb, hs.pushNodup, hs.queueBal, ?_, hs.visitedFrom, ?_⟩
    · intro v
      have hb := hs.fetchBal v
      simp only [holders, fetchCount] at hb ⊢
      rw [hw, countP_mid] at hb
      show s.fetchLog.countP _ + (l1 ++ WPhase.idle :: l2).countP _ ≤
        cnt v s.popLog
      rw [countP_mid]
      have hidle : decide (WPhase.idle = WPhase.popped v) = false := by simp
      rw [hidle]
      simp only [Bool.false_eq_true, if_false]
      omega
    · intro w lk hmem
      apply hs.phaseFetched w lk
      rw [hw]
      rcases hmem with hmem | hmem
      · exact Or.inl (mem_swap hmem (by simp))
      · exact Or.inr (mem_swap hmem (by simp))
  | fetchOk u hrefs l1 l2 hw hnv =>
    refine ⟨hs.pushedInDb, hs.pushNodup, hs.queueBal, ?_, ?_, ?_⟩
    · intro v
      have hb := hs.fetchBal v
      simp only [holders, fetchCount] at hb ⊢
      rw [hw, countP_mid] at hb
      show (s.fetchLog ++ [(u, true)]).countP _ +
        (l1 ++ WPhase.gotPage u (parse_links hrefs u) :: l2).countP _ ≤
        cnt v s.popLog
      rw [countP_mid, List.countP_append, List.countP_cons, List.countP_nil]
      have hgot : decide (WPhase.gotPage u (parse_links hrefs u) =
          WPhase.popped v) = false := by simp
      rw [hgot]
      simp only [Bool.false_eq_true, if_false]
      by_cases huv : u = v
      · subst huv
        have h1 : decide (WPhase.popped u = WPhase.popped u) = true := by simp
        rw [h1] at hb
        have h2 : decide ((u, true).1 = u) = true := by simp
        rw [h2]
        simp only [if_pos rfl] at hb ⊢
        omega
      · have h1 : decide (WPhase.popped u = WPhase.popped v) = false := by
          simp [huv]
        rw [h1] at hb
        have h2 : decide ((u, true).1 = v) = false := by simp [huv]
        rw [h2]
        simp only [Bool.false_eq_true, if_false] at hb ⊢
        omega
    · intro v hv
      rcases hs.visitedFrom v hv with h | h
      · exact Or.inl h
      · exact Or.inr (List.mem_append_left _ h)
    · intro w lk hmem
      rcases hmem with hmem | hmem
      · rcases mem_mid (WPhase.popped u) hmem with heq | hold
        · cases heq
          exact List.mem_append_right _ (List.mem_singleton.mpr rfl)
        · refine List.mem_append_left _ (hs.phaseFetched w lk (Or.inl ?_))
          rw [hw]; exact hold
      · refine List.mem_append_left _
          (hs.phaseFetched w lk (Or.inr ?_))
        rw [hw]; exact mem_swap hmem (by simp)
  | fetchFail u l1 l2 hw hnv =>
    refine ⟨hs.pushedInDb, hs.pushNodup, hs.queueBal, ?_, ?_, ?_⟩
    · intro v
      have hb := hs.fetchBal v
      simp only [holders, fetchCount] at hb ⊢
      rw [hw, countP_mid] at hb
      show (s.fetchLog ++ [(u, false)]).countP _ +
        (l1 ++ WPhase.idle :: l2).countP _ ≤ cnt v s.popLog
      rw [countP_mid, List.countP_append, List.countP_cons, List.countP_nil]
      have hidle : decide (WPhase.idle = WPhase.popped v) = false := by simp
      rw [hidle]
      simp only [Bool.false_eq_true, if_false]
      by_cases huv : u = v
      · subst huv
        have h1 : decide (WPhase.popped u = WPhase.popped u) = true := by simp
        rw [h1] at hb
        have h2 : decide ((u, false).1 = u) = true := by simp
        rw [h2]
        simp only [if_pos rfl] at hb ⊢
        omega
      · have h1 : decide (WPhase.popped u = WPhase.popped v) = false := by
          simp [huv]
        rw [h1] at hb
        have h2 : decide ((u, false).1 = v) = false := by simp [huv]
        rw [h2]
        simp only [Bool.false_eq_true, if_false] at hb ⊢
        omega
    · intro v hv
      rcases hs.visitedFrom v hv with h | h
      · exact Or.inl h
      · exact Or.inr (List.mem_append_left _ h)
    · intro w lk hmem
      rcases hmem with hmem | hmem
      · refine List.mem_append_left _ (hs.phaseFetched w lk (Or.inl ?_))
        rw [hw]; exact mem_swap hmem (by simp)
      · refine List.mem_append_left _ (hs.phaseFetched w lk (Or.inr ?_))
        rw [hw]; exact mem_swap hmem (by simp)
  | mark u links l1 l2 hw =>
    refine ⟨?_, hs.pushNodup, hs.queueBal, ?_, ?_, ?_⟩
    · intro v hv
      exact mark_mono (hs.pushedInDb v hv) u
    · intro v
      have hb := hs.fetchBal v
      simp only [holders, fetchCount] at hb ⊢
      rw [hw, countP_mid] at hb
      show s.fetchLog.countP _ +
        (l1 ++ WPhase.marked u links :: l2).countP _ ≤ cnt v s.popLog
      rw [countP_mid]
      have h1 : decide (WPhase.gotPage u links = WPhase.popped v) = false := by
        simp
      have h2 : decide (WPhase.marked u links = WPhase.popped v) = false := by
        simp
      rw [h1] at hb; rw [h2]
      simp only [Bool.false_eq_true, if_false] at hb ⊢
      omega
    · intro v hv
      rcases mark_back_true hv with rfl | hv'
      · refine Or.inr (hs.phaseFetched v links (Or.inl ?_))
        rw [hw]
        exact List.mem_append_right _ (List.mem_cons_self _ _)
      · exact hs.visitedFrom v hv'
    · intro w lk hmem
      rcases hmem with hmem | hmem
      · refine hs.phaseFetched w lk (Or.inl ?_)
        rw [hw]; exact mem_swap hmem (by simp)
      · rcases mem_mid (WPhase.gotPage u links) hmem with heq | hold
        · cases heq
          refine hs.phaseFetched u links (Or.inl ?_)
          rw [hw]
          exact List.mem_append_right _ (List.mem_cons_self _ _)
        · refine hs.phaseFetched w lk (Or.inr ?_)
          rw [hw]; exact hold
  | enqueue u links l1 l2 hw =>
    refine ⟨?_, ?_, ?_, ?_, ?_, ?_⟩
    · intro v hv
      rcases List.mem_append.mp hv with hv | hv
      · exact enqueue_mono links (hs.pushedInDb v hv)
      · exact enqueue_links_in links s.db (enqueue_pushed_sub links s.db hv)
    · refine List.Nodup.append hs.pushNodup (enqueue_pushed_nodup links s.db)
        ?_
      intro v hv1 hv2
      exact hs.pushedInDb v hv1 (enqueue_pushed_absent links s.db hv2)
    · intro v
      have hb := hs.queueBal v
      show cnt v (s.queue ++ (enqueue_new s.db links).2) + cnt v s.popLog =
        cnt v (s.pushLog ++ (enqueue_new s.db links).2)
      rw [cnt_append, cnt_append]
      omega
    · intro v
      have hb := hs.fetchBal v
      simp only [holders, fetchCount] at hb ⊢
      rw [hw, countP_mid] at hb
      show s.fetchLog.countP _ +
        (l1 ++ WPhase.idle :: l2).countP _ ≤ cnt v s.popLog
      rw [countP_mid]
      have h1 : decide (WPhase.marked u links = WPhase.popped v) = false := by
        simp
      have h2 : decide (WPhase.idle = WPhase.popped v) = false := by simp
      rw [h1] at hb; rw [h2]
      simp only [Bool.false_eq_true, if_false] at hb ⊢
      omega
    · intro v hv
      exact hs.visitedFrom v (enqueue_back_true links s.db hv)
    · intro w lk hmem
      rcases hmem with hmem | hmem
      · refine hs.phaseFetched w lk (Or.inl ?_)
        rw [hw]; exact mem_swap hmem (by simp)
      · refine hs.phaseFetched w lk (Or.inr ?_)
        rw [hw]; exact mem_swap hmem (by simp)

theorem reach_inv {db0 : Db} {seed : String} {T : Nat} {s : CrawlState}
    (h : Reachable (initState db0 seed T) s) : Inv db0 s := by
  induction h with
  | refl => exact inv_init db0 seed T
  | tail _ hstep ih => exact inv_step ih hstep

/-! ### Race, worker and URL helper lemmas -/

theorem race_count_zero {db : Db} {u : String} (h : lookupDb db u ≠ none) :
    ∀ k : Nat, (raceResults db u k).count true = 0 := by
  intro k
  induction k generalizing db with
  | zero => rfl
  | succ n ih =>
    rw [show raceResults db u (n + 1) =
      (insertIfAbsent db u).2 :: raceResults (insertIfAbsent db u).1 u n
      from rfl]
    rw [insertIfAbsent_of_present h]
    simp only [List.count_cons]
    rw [ih h]
    simp

theorem race_count_one {db : Db} {u : String} (h : lookupDb db u = none)
    (k : Nat) : (raceResults db u (k + 1)).count true = 1 := by
  rw [show raceResults db u (k + 1) =
    (insertIfAbsent db u).2 :: raceResults (insertIfAbsent db u).1 u k
    from rfl]
  rw [insertIfAbsent_of_absent h]
  simp only [List.count_cons]
  have hz : (raceResults (db ++ [(u, false)]) u k).count true = 0 := by
    refine race_count_zero ?_ k
    rw [lookupDb_append_right h]
    simp [lookupDb]
  rw [hz]
  simp

theorem dbEvolves_refl (d : Db) : DbEvolves d d := fun _ _ h => Or.inl h

theorem mark_none_iff (db : Db) (u v : String) :
    lookupDb (mark_visited db u) v = none ↔ lookupDb db v = none := by
  rw [mark_lookup]
  by_cases hvu : v = u <;> simp [hvu]

theorem workerIter_db_cases (db : Db) (u : String) (o : FetchOutcome)
    (hrefs : List String) :
    (workerIter db u o hrefs).db = db ∨
    (workerIter db u o hrefs).db =
      (enqueue_new (mark_visited db u) (parse_links hrefs u)).1 := by
  cases hl : lookupDb db u with
  | none =>
    by_cases hfo : fetch o = "" <;>
      simp [workerIter, hl, workerIterFetch, hfo]
  | some b =>
    cases b <;> by_cases hfo : fetch o = "" <;>
      simp [workerIter, hl, workerIterFetch, hfo]

theorem splitScheme_hash (f : Chars) :
    splitScheme ('#' :: f) = ([], '#' :: f) := by
  have hna : ('#').isAlpha = false := by decide
  unfold splitScheme
  cases hsf : splitFirst ':' ('#' :: f) with
  | none => rfl
  | some pp => simp [hna]

theorem urlsplit_hash (f ds : Chars) :
    urlsplitL ('#' :: f) ds = ⟨ds, [], [], [], f⟩ := by
  have h1 : ¬ (('#' :: f).take 2 = ['/', '/']) := by
    rw [List.take_succ_cons]
    exact fun hc => absurd (List.cons_eq_cons.mp hc).1 (by decide)
  simp [urlsplitL, splitScheme_hash, splitFirst, h1]

theorem urlunsplit_frag (sc nl pa qu f : Chars) (hf : f ≠ []) :
    urlunsplitL ⟨sc, nl, pa, qu, f⟩ =
      urlunsplitL ⟨sc, nl, pa, qu, []⟩ ++ '#' :: f := by
  simp [urlunsplitL, hf]

theorem urljoin_hash {b f : Chars} (hb : b ≠ []) (hf : f ≠ [])
    (hrel : (urlsplitL b []).scheme ∈ usesRelative)
    (hnet : (urlsplitL b []).scheme ∈ usesNetloc)
    (hfrag : (urlsplitL b []).frag = [])
    (hround : urlunsplitL (urlsplitL b []) = b) :
    urljoinL b ('#' :: f) = b ++ '#' :: f := by
  cases hP : urlsplitL b [] with
  | mk bs bn bp bq bfr =>
    rw [hP] at hrel hnet hfrag hround
    simp only at hrel hnet hfrag hround
    subst hfrag
    unfold urljoinL
    rw [if_neg hb, if_neg (by simp : ¬('#' :: f = [])), hP]
    dsimp only
    rw [urlsplit_hash]
    dsimp only
    rw [if_neg (not_not_intro ⟨rfl, hrel⟩)]
    rw [if_neg (fun hc => hc.2 rfl)]
    rw [if_pos hnet]
    rw [if_pos rfl, if_pos rfl]
    rw [urlunsplit_frag bs bn bp bq f hf, hround]

theorem data_ne_nil {s : String} (h : s ≠ "") : s.data ≠ [] := by
  intro hc
  exact h (by
    have : s.data = ("" : String).data := hc
    exact String.ext this)

/-! ### Claim theorems -/

/-- Claim C1: for every crawl run started from one seed with any number `T`
of worker threads, each distinct URL is fetched at most once during that run:
no URL string is ever passed to the fetch operation twice. -/
theorem C1_no_duplicate_fetch (db0 : Db) (seed : String) (T : Nat)
    (s : CrawlState) (h : Reachable (initState db0 seed T) s) (u : String) :
    fetchCount s u ≤ 1 := by
  have hinv := reach_inv h
  have h1 := hinv.fetchBal u
  have h2 := hinv.queueBal u
  have h3 : cnt u s.pushLog ≤ 1 := cnt_le_one_of_nodup hinv.pushNodup u
  omega

/-- Witness for C1: a concrete two-step run (pop the seed, fetch it) in which
the seed has been fetched exactly once. -/
theorem C1_no_duplicate_fetch_witness :
    Reachable (initState [] "http://a.onion/" 1)
      { db := [("http://a.onion/", false)], queue := [],
        workers := [WPhase.gotPage "http://a.onion/" []],
        pushLog := ["http://a.onion/"], popLog := ["http://a.onion/"],
        fetchLog := [("http://a.onion/", true)] } ∧
    fetchCount
      { db := [("http://a.onion/", false)], queue := [],
        workers := [WPhase.gotPage "http://a.onion/" []],
        pushLog := ["http://a.onion/"], popLog := ["http://a.onion/"],
        fetchLog := [("http://a.onion/", true)] } "http://a.onion/" ≤ 1 := by
  have htr : Reachable (initState [] "http://a.onion/" 1)
      { db := [("http://a.onion/", false)], queue := [],
        workers := [WPhase.gotPage "http://a.onion/" []],
        pushLog := ["http://a.onion/"], popLog := ["http://a.onion/"],
        fetchLog := [("http://a.onion/", true)] } :=
    Relation.ReflTransGen.tail
      (Relation.ReflTransGen.single
        (Step.pop (initState [] "http://a.onion/" 1) "http://a.onion/" []
          [] [] rfl rfl))
      (Step.fetchOk _ "http://a.onion/" [] [] [] rfl (by decide))
  exact ⟨htr,
    C1_no_duplicate_fetch [] "http://a.onion/" 1 _ htr "http://a.onion/"⟩

/-- Claim C2: `insertIfAbsent` (the `INSERT OR IGNORE` + rowcount pattern of
`enqueue_new`/`add_seed`) reports a new insert iff the URL had no row before;
an existing row is left unchanged (first-write-wins); and among any number of
lock-serialized callers racing on the same absent URL, exactly one sees
`true`. -/
theorem C2_insert_if_absent_contract (db : Db) (u : String) (k : Nat) :
    ((insertIfAbsent db u).2 = true ↔ lookupDb db u = none) ∧
    (lookupDb db u ≠ none → (insertIfAbsent db u).1 = db) ∧
    (lookupDb db u = none →
      lookupDb (insertIfAbsent db u).1 u = some false) ∧
    (lookupDb db u = none →
      (raceResults db u (k + 1)).count true = 1) ∧
    (lookupDb db u ≠ none → (raceResults db u (k + 1)).count true = 0) := by
  refine ⟨insert_new_iff db u, ?_, ?_, ?_, ?_⟩
  · intro h
    rw [insertIfAbsent_of_present h]
  · intro h
    rw [insertIfAbsent_of_absent h]
    rw [lookupDb_append_right h]
    simp [lookupDb]
  · intro h
    exact race_count_one h k
  · intro h
    exact race_count_zero h (k + 1)

/-- Witness for C2: on an empty store, three racing inserts of the same URL
see exactly one `true`, and the insert reports new. -/
theorem C2_insert_if_absent_contract_witness :
    (raceResults [] "http://a.onion/" 3).count true = 1 ∧
    (insertIfAbsent [] "http://a.onion/").2 = true :=
  ⟨(C2_insert_if_absent_contract [] "http://a.onion/" 2).2.2.2.1 rfl,
   (C2_insert_if_absent_contract [] "http://a.onion/" 0).1.mpr rfl⟩

/-- Claim C3 (code bug): the worker is supposed to signal `task_done` exactly
once per popped item, and it does on the fetched paths — but on the
already-visited skip path the explicit `task_done()` before `continue` plus
the `finally` block's `task_done()` (Python runs `finally` on `continue`)
signal twice, corrupting the queue's drain tracking. The single-seed
zero-links path does signal exactly once. -/
theorem C3_task_done_double_signal :
    (workerIter [("http://a.onion/", true)] "http://a.onion/"
        (.ok "<html></html>") []).taskDone = 2 ∧
    (workerIter [("http://s.onion/", false)] "http://s.onion/"
        (.ok "<html></html>") []).taskDone = 1 ∧
    (workerIter [("http://s.onion/", false)] "http://s.onion/"
        (.ok "<html></html>") []).pushed = [] := by
  refine ⟨rfl, ?_, ?_⟩ <;> decide

/-- Claim C4 counterexample: with the seed already recorded in the store, the
insert is not new (`rowcount = 0`), yet `add_seed` still puts the seed on the
queue — the claim says an already-present seed is not pushed. -/
theorem C4_counterexample :
    (insertIfAbsent [("http://a.onion/", false)] "http://a.onion/").2 =
      false ∧
    (add_seed [("http://a.onion/", false)] "http://a.onion/").2 =
      ["http://a.onion/"] :=
  ⟨by decide, rfl⟩

/-- Claim C4 (amended): the seed URL is inserted into the frontier store via
insert-if-absent and is always pushed onto the work queue, whether or not the
insert was new; existing rows are unchanged, and a fresh seed gets an
unvisited row. -/
theorem C4_amended_seed_always_pushed (db : Db) (url v : String) (b : Bool) :
    (add_seed db url).2 = [url] ∧
    lookupDb (add_seed db url).1 url ≠ none ∧
    (lookupDb db url = none →
      lookupDb (add_seed db url).1 url = some false) ∧
    (lookupDb db v = some b → lookupDb (add_seed db url).1 v = some b) := by
  refine ⟨rfl, insert_lookup_self db url, ?_, ?_⟩
  · intro h
    rw [show (add_seed db url).1 = (insertIfAbsent db url).1 from rfl]
    rw [insertIfAbsent_of_absent h, lookupDb_append_right h]
    simp [lookupDb]
  · intro h
    exact insert_preserve h url

/-- Witness for C4 (amended): a fresh seed is pushed and recorded
unvisited. -/
theorem C4_amended_seed_always_pushed_witness :
    (add_seed [] "http://a.onion/").2 = ["http://a.onion/"] ∧
    lookupDb (add_seed [] "http://a.onion/").1 "http://a.onion/" =
      some false :=
  ⟨(C4_amended_seed_always_pushed [] "http://a.onion/" "x" false).1,
   (C4_amended_seed_always_pushed [] "http://a.onion/" "x" false).2.2.1 rfl⟩

/-- Claim C5 counterexample: `urljoin` does not strip fragments — resolving
`#frag` against a base yields the base WITH the fragment appended, and the
fragment-bearing URL is returned by link extraction. -/
theorem C5_counterexample :
    urljoin "http://x.onion/c/d" "#frag" = "http://x.onion/c/d#frag" ∧
    ("http://x.onion/c/d#frag" : String) ≠ "http://x.onion/c/d" ∧
    "http://x.onion/c/d#frag" ∈
      parse_links ["#frag"] "http://x.onion/c/d" := by
  refine ⟨?_, ?_, ?_⟩ <;> decide

/-- Claim C5 (amended): normalization resolves relative references against
the base (the spec's two relative-path vectors hold) but does NOT strip
fragments: for any nonempty canonical fragment-free http(s) base `b`,
resolving `"#" ++ f` yields `b ++ "#" ++ f`. -/
theorem C5_amended_no_fragment_strip (b f : String) (hb : b ≠ "")
    (hf : f ≠ "")
    (hscheme : (urlsplitL b.data []).scheme = "http".data ∨
      (urlsplitL b.data []).scheme = "https".data)
    (hfrag : (urlsplitL b.data []).frag = [])
    (hround : urlunsplitL (urlsplitL b.data []) = b.data) :
    urljoin b ("#" ++ f) = b ++ "#" ++ f ∧
    urljoin "http://x.onion/c/d" "/a/b" = "http://x.onion/a/b" ∧
    urljoin "http://x.onion/c/d/" "../e" = "http://x.onion/c/e" := by
  refine ⟨?_, by decide, by decide⟩
  have hrel : (urlsplitL b.data []).scheme ∈ usesRelative := by
    rcases hscheme with h | h <;> rw [h] <;> decide
  have hnet : (urlsplitL b.data []).scheme ∈ usesNetloc := by
    rcases hscheme with h | h <;> rw [h] <;> decide
  have hdata : ("#" ++ f).data = '#' :: f.data := by
    simp [String.data_append]
  apply String.ext
  show (urljoinL b.data ("#" ++ f).data) = (b ++ "#" ++ f).data
  rw [hdata]
  rw [urljoin_hash (data_ne_nil hb) (data_ne_nil hf) hrel hnet hfrag hround]
  simp [String.data_append]

/-- Witness for C5 (amended): fragment preservation at a concrete base. -/
theorem C5_amended_no_fragment_strip_witness :
    urljoin "http://x.onion/c/d" ("#" ++ "frag") =
      "http://x.onion/c/d" ++ "#" ++ "frag" :=
  (C5_amended_no_fragment_strip "http://x.onion/c/d" "frag" (by decide)
    (by decide) (by decide) (by decide) (by decide)).1

/-- Claim C6: a failed fetch returns an empty-content result instead of
raising past the worker boundary; the worker then leaves the store untouched
(no visited mark) and pushes nothing; and across a whole run, a URL all of
whose fetches failed is not in the visited set at the end (provided it was
not already visited on disk). -/
theorem C6_failed_fetch_leaves_unvisited (db0 : Db) (seed : String) (T : Nat)
    (s : CrawlState) (u msg : String) (db : Db) (hrefs : List String)
    (h : Reachable (initState db0 seed T) s)
    (hfail : ∀ p ∈ s.fetchLog, p.1 = u → p.2 = false)
    (h0 : lookupDb db0 u ≠ some true) :
    fetch (.err msg) = "" ∧
    (workerIter db u (.err msg) hrefs).db = db ∧
    (workerIter db u (.err msg) hrefs).pushed = [] ∧
    lookupDb s.db u ≠ some true := by
  have hwi : (workerIter db u (.err msg) hrefs).db = db ∧
      (workerIter db u (.err msg) hrefs).pushed = [] := by
    cases hl : lookupDb db u with
    | none => simp [workerIter, hl, workerIterFetch, fetch]
    | some b => cases b <;> simp [workerIter, hl, workerIterFetch, fetch]
  refine ⟨rfl, hwi.1, hwi.2, ?_⟩
  intro hv
  rcases (reach_inv h).visitedFrom u hv with hc | hc
  · exact h0 hc
  · have := hfail (u, true) hc rfl
    simp at this

/-- Witness for C6: on a run that has fetched nothing, an unvisited URL with
a failing fetch stays unvisited and produces no pushes. -/
theorem C6_failed_fetch_leaves_unvisited_witness :
    fetch (.err "connection refused") = "" ∧
    (workerIter [("http://u.onion/", false)] "http://u.onion/"
      (.err "connection refused") []).db = [("http://u.onion/", false)] ∧
    (workerIter [("http://u.onion/", false)] "http://u.onion/"
      (.err "connection refused") []).pushed = [] ∧
    lookupDb (initState [] "http://s.onion/" 1).db "http://u.onion/" ≠
      some true :=
  C6_failed_fetch_leaves_unvisited [] "http://s.onion/" 1 _ "http://u.onion/"
    "connection refused" [("http://u.onion/", false)] []
    Relation.ReflTransGen.refl (by simp [initState]) (by decide)

/-- Claim C7: on nonempty content the worker extracts links, marks the URL
visited, insert-if-absents each extracted link, and pushes exactly those
links whose insert created a new row. -/
theorem C7_success_path (db : Db) (u body : String) (hrefs : List String)
    (l : String) (hu : lookupDb db u = some false) (hbody : body ≠ "") :
    (workerIter db u (.ok body) hrefs).didFetch = true ∧
    lookupDb (workerIter db u (.ok body) hrefs).db u = some true ∧
    (l ∈ (workerIter db u (.ok body) hrefs).pushed ↔
      l ∈ parse_links hrefs u ∧ lookupDb db l = none) ∧
    (workerIter db u (.ok body) hrefs).taskDone = 1 := by
  have hred : workerIter db u (.ok body) hrefs =
      ⟨(enqueue_new (mark_visited db u) (parse_links hrefs u)).1,
       (enqueue_new (mark_visited db u) (parse_links hrefs u)).2, 1, true⟩ :=
    by simp [workerIter, hu, workerIterFetch, fetch, hbody]
  rw [hred]
  refine ⟨rfl, ?_, ?_, rfl⟩
  · exact enqueue_preserve _ _ (mark_true (by simp [hu]))
  · rw [enqueue_pushed_mem (parse_links hrefs u) (mark_visited db u)
      (parseGo_nodup u hrefs [] List.nodup_nil)]
    rw [mark_none_iff]

/-- Witness for C7: a successful fetch of a known-unvisited URL marks it
visited and pushes its one new extracted link. -/
theorem C7_success_path_witness :
    lookupDb [("http://x.onion/c", false)] "http://x.onion/c" =
      some false ∧
    lookupDb (workerIter [("http://x.onion/c", false)] "http://x.onion/c"
      (.ok "<a href=/p1>") ["/p1"]).db "http://x.onion/c" = some true ∧
    "http://x.onion/p1" ∈ (workerIter [("http://x.onion/c", false)]
      "http://x.onion/c" (.ok "<a href=/p1>") ["/p1"]).pushed :=
  ⟨by decide,
   (C7_success_path [("http://x.onion/c", false)] "http://x.onion/c"
     "<a href=/p1>" ["/p1"] "http://x.onion/p1" (by decide) (by decide)).2.1,
   ((C7_success_path [("http://x.onion/c", false)] "http://x.onion/c"
     "<a href=/p1>" ["/p1"] "http://x.onion/p1" (by decide)
     (by decide)).2.2.1).mpr (by decide)⟩

/-- Claim C8: store invariants preserved by every operation — keys stay
unique, rows are never deleted, and `visited` only transitions false→true
(never reverts) — for `add_seed`, `enqueue_new`, `mark_visited` and a full
worker iteration. -/
theorem C8_store_invariants (db : Db) (u url : String) (links : List String)
    (o : FetchOutcome) (hrefs : List String) (hk : KeysNodup db) :
    (KeysNodup (add_seed db url).1 ∧ DbEvolves db (add_seed db url).1) ∧
    (KeysNodup (enqueue_new db links).1 ∧
      DbEvolves db (enqueue_new db links).1) ∧
    (KeysNodup (mark_visited db u) ∧ DbEvolves db (mark_visited db u)) ∧
    (KeysNodup (workerIter db u o hrefs).db ∧
      DbEvolves db (workerIter db u o hrefs).db) := by
  refine ⟨⟨keys_insert hk url, insert_evolves db url⟩,
          ⟨keys_enqueue links db hk, enqueue_evolves db links⟩,
          ⟨keys_mark_nodup hk u, mark_evolves db u⟩, ?_⟩
  rcases workerIter_db_cases db u o hrefs with hc | hc <;> rw [hc]
  · exact ⟨hk, dbEvolves_refl db⟩
  · exact ⟨keys_enqueue _ _ (keys_mark_nodup hk u),
      (mark_evolves db u).trans (enqueue_evolves _ _)⟩

/-- Witness for C8: invariants hold concretely after marking a row
visited. -/
theorem C8_store_invariants_witness :
    KeysNodup [("http://a.onion/", false)] ∧
    KeysNodup (mark_visited [("http://a.onion/", false)] "http://a.onion/") ∧
    DbEvolves [("http://a.onion/", false)]
      (mark_visited [("http://a.onion/", false)] "http://a.onion/") :=
  ⟨by unfold KeysNodup; decide,
   (C8_store_invariants [("http://a.onion/", false)] "http://a.onion/" "x"
     [] (.err "e") [] (by unfold KeysNodup; decide)).2.2.1.1,
   (C8_store_invariants [("http://a.onion/", false)] "http://a.onion/" "x"
     [] (.err "e") [] (by unfold KeysNodup; decide)).2.2.1.2⟩

/-- Claim C9: link extraction returns the deduplicated set of resolved href
URLs whose scheme is http or https, with no host filtering: the source's
`.onion` condition is a tautology, so the extractor coincides with the
scheme-only extractor. -/
theorem C9_extractor_no_host_filter (hrefs : List String) (base u : String) :
    (parse_links hrefs base).Nodup ∧
    (u ∈ parse_links hrefs base ↔
      ∃ h ∈ hrefs, urljoin base h = u ∧ httpScheme u) ∧
    parse_links hrefs base = parse_links_schemeOnly hrefs base := by
  refine ⟨parseGo_nodup base hrefs [] List.nodup_nil, ?_,
    parseGo_schemeOnly_eq base hrefs []⟩
  have hm := parseGo_mem base hrefs (y := u) []
  simpa [parse_links] using hm

/-- Claim C10: a popped URL with no row in the store at all is treated as
unvisited: the empty lookup neither skips nor raises, and the worker
proceeds to fetch it (signalling completion once). -/
theorem C10_missing_row_fetched (db : Db) (u : String) (o : FetchOutcome)
    (hrefs : List String) (h : lookupDb db u = none) :
    (workerIter db u o hrefs).didFetch = true ∧
    (workerIter db u o hrefs).taskDone = 1 := by
  by_cases hfo : fetch o = "" <;>
    simp [workerIter, h, workerIterFetch, hfo]

/-- Witness for C10: a URL absent from the store is fetched. -/
theorem C10_missing_row_fetched_witness :
    lookupDb [] "http://a.onion/" = none ∧
    (workerIter [] "http://a.onion/" (.ok "x") []).didFetch = true :=
  ⟨rfl, (C10_missing_row_fetched [] "http://a.onion/" (.ok "x") [] rfl).1⟩

end DarknetCrawler
